import Mathlib

/-!
Verification of the sparse-polynomial repository (two storage strategies:
`with_2d_list.py` and `with_dict.py`).

Coefficients are modelled as `ℚ` (exact stand-in for Python floats on the
decimal inputs involved), exponents as `ℕ`.  A 2D-list term `[coefficient,
exponent]` becomes a pair `ℚ × ℕ`; the Python `dict` (which preserves
insertion order) becomes an association list `ℕ × ℚ` updated in place.
Python `while` loops are modelled as fuelled structural recursion, with the
fuel chosen at the call site large enough that it is never exhausted (the
loop variables `left`/`right` close in by at least one each iteration, so
`length + 1` iterations always suffice); this keeps every definition
computable by kernel reduction.
-/

deriving instance DecidableEq for Except

/-- Python errors that the two implementations can raise. -/
inductive PyErr where
  | valueError
  | typeError
  | keyError
deriving DecidableEq

/-- A 2D-list term `[coefficient, exponent]` from `with_2d_list.py`. -/
abbrev Term := ℚ × ℕ

/-- A dict entry `exponent ↦ coefficient` from `with_dict.py`. -/
abbrev DictEntry := ℕ × ℚ

/-! ## Parser (identical in both files)

`parse_polynomial_string` removes spaces, splits before every `+`/`-`
(`re.split(r'(?=[-+])', s)`), and matches each token against
`([-+]?\d*(?:\.\d+)?)x\^?(\d*)` with `re.match`; a token without `x` falls
back to `float(term)` with exponent 0.  `float` on a string without digits
(`""`, `"+"`, `"-"`, or non-numeric text) raises `ValueError`. -/

/-- `polynomial_str.replace(" ", "")`. -/
def removeSpaces (s : String) : String :=
  ⟨s.data.filter (fun c => c ≠ ' ')⟩

/-- `re.split(r'(?=[-+])', s)`: cut the string immediately before every
`+` or `-`, keeping the sign attached to the following token (a leading
sign produces an initial empty token, as `re.split` does). -/
def splitSigns (s : String) : List String :=
  let r := s.data.foldl
    (fun (acc : List String × String) c =>
      if c = '+' ∨ c = '-' then (acc.1 ++ [acc.2], String.singleton c)
      else (acc.1, acc.2.push c))
    ([], "")
  r.1 ++ [r.2]

/-- Value of a (possibly empty) digit string, as `int` does. -/
def digitsVal (ds : List Char) : ℕ :=
  ds.foldl (fun n c => 10 * n + (c.toNat - 48)) 0

/-- `re.match(r'([-+]?\d*(?:\.\d+)?)x\^?(\d*)', term)`: anchored at the
start only, returning the two capture groups on success.  Greedy matching
without backtracking is equivalent here because shrinking any earlier
sub-match can never place the literal `x` under the cursor. -/
def matchTerm (t : String) : Option (String × String) :=
  let cs := t.data
  let sign : List Char × List Char :=
    match cs with
    | c :: rest => if c = '+' ∨ c = '-' then ([c], rest) else ([], cs)
    | [] => ([], [])
  let ds := sign.2.takeWhile (fun c => c.isDigit)
  let cs2 := sign.2.dropWhile (fun c => c.isDigit)
  let frac : List Char × List Char :=
    match cs2 with
    | '.' :: rest =>
      let fs := rest.takeWhile (fun c => c.isDigit)
      if fs.isEmpty then ([], cs2) else ('.' :: fs, rest.dropWhile (fun c => c.isDigit))
    | _ => ([], cs2)
  match frac.2 with
  | 'x' :: cs4 =>
    let cs5 := match cs4 with
      | '^' :: r => r
      | _ => cs4
    some (⟨sign.1 ++ ds ++ frac.1⟩, ⟨cs5.takeWhile (fun c => c.isDigit)⟩)
  | _ => none

/-- Python `float` on the strings reachable here: an optional sign followed
by decimal digits with an optional fractional part, requiring at least one
digit and full consumption; anything else (in particular `""`, `"+"`,
`"-"`) raises `ValueError`, modelled as `none`. -/
def pyFloat (s : String) : Option ℚ :=
  let cs := s.data
  let sgn : ℚ × List Char :=
    match cs with
    | '-' :: rest => (-1, rest)
    | '+' :: rest => (1, rest)
    | _ => (1, cs)
  let intDs := sgn.2.takeWhile (fun c => c.isDigit)
  let cs2 := sgn.2.dropWhile (fun c => c.isDigit)
  match cs2 with
  | [] => if intDs.isEmpty then none else some (sgn.1 * digitsVal intDs)
  | '.' :: rest =>
    let fracDs := rest.takeWhile (fun c => c.isDigit)
    let cs3 := rest.dropWhile (fun c => c.isDigit)
    if cs3.isEmpty && !(intDs.isEmpty && fracDs.isEmpty) then
      some (sgn.1 * ((digitsVal intDs : ℚ) + (digitsVal fracDs : ℚ) / (10 : ℚ) ^ fracDs.length))
    else none
  | _ => none

/-- One loop body of `parse_polynomial_string`: match the token, take
`float(group(1))` and `int(group(2)) or 1` on success, else fall back to
the constant case `float(term)` with exponent 0. -/
def parseToken (t : String) : Except PyErr (ℚ × ℕ) :=
  match matchTerm t with
  | some g =>
    match pyFloat g.1 with
    | some c => Except.ok (c, if g.2 = "" then 1 else digitsVal g.2.data)
    | none => Except.error PyErr.valueError
  | none =>
    match pyFloat t with
    | some c => Except.ok (c, 0)
    | none => Except.error PyErr.valueError

/-! ## Ordered strategy (`with_2d_list.py`) -/

namespace With2dList

/-- Outcome of the binary-search `while` loop in `add_term`: `found mid`
when it breaks at a matching exponent, `notFound left` when it runs to
completion (the `while ... else` branch inserts at `left`). -/
inductive SearchResult where
  | found : ℕ → SearchResult
  | notFound : ℕ → SearchResult
deriving DecidableEq

/-- The shared binary-search loop
`left, right = 0, len(terms) - 1; while left <= right: ...`
(`mid = (left + right) // 2`; all reachable states have `left + right ≥ 0`,
so floor division agrees with `ℕ` division).  Fuel only bounds the number
of iterations; callers pass enough for the loop to finish on its own. -/
def bsearchLoop (ts : List Term) (e : ℕ) : ℕ → ℕ → ℤ → SearchResult
  | fuel + 1, left, right =>
    if (left : ℤ) ≤ right then
      let mid : ℕ := (left + right.toNat) / 2
      if (ts.getD mid (0, 0)).2 = e then SearchResult.found mid
      else if (ts.getD mid (0, 0)).2 < e then bsearchLoop ts e fuel (mid + 1) right
      else bsearchLoop ts e fuel left ((mid : ℤ) - 1)
    else SearchResult.notFound left
  | 0, left, _ => SearchResult.notFound left

/-- Python `list.insert(n, a)` (appends when `n ≥ len`). -/
def pyInsert : List Term → ℕ → Term → List Term
  | xs, 0, a => a :: xs
  | [], _ + 1, a => [a]
  | x :: xs, n + 1, a => x :: pyInsert xs n a

/-- `add_term`: no-op on zero coefficient; otherwise binary-search for the
exponent, accumulating into the matching term on `found` and inserting a
new term at `left` otherwise. -/
def add_term (coefficient : ℚ) (exponent : ℕ) (ts : List Term) : List Term :=
  if coefficient ≠ 0 then
    match bsearchLoop ts exponent (ts.length + 1) 0 ((ts.length : ℤ) - 1) with
    | SearchResult.found mid =>
      match ts.get? mid with
      | some t => ts.set mid (t.1 + coefficient, t.2)
      | none => ts
    | SearchResult.notFound left => pyInsert ts left (coefficient, exponent)
  else ts

/-- `evaluate`: `result = 0; for coefficient, exponent in terms: result += coefficient * x ** exponent`. -/
def evaluate (ts : List Term) (x : ℚ) : ℚ :=
  ts.foldl (fun result t => result + t.1 * x ^ t.2) 0

/-- The binary-search loop of `find_coefficient` (returns the stored
coefficient on a match, `0` when the loop completes). -/
def findLoop (ts : List Term) (n : ℕ) : ℕ → ℕ → ℤ → ℚ
  | fuel + 1, left, right =>
    if (left : ℤ) ≤ right then
      let mid : ℕ := (left + right.toNat) / 2
      if (ts.getD mid (0, 0)).2 = n then (ts.getD mid (0, 0)).1
      else if (ts.getD mid (0, 0)).2 < n then findLoop ts n fuel (mid + 1) right
      else findLoop ts n fuel left ((mid : ℤ) - 1)
    else 0
  | 0, _, _ => 0

/-- `find_coefficient(n)`. -/
def find_coefficient (ts : List Term) (n : ℕ) : ℚ :=
  findLoop ts n (ts.length + 1) 0 ((ts.length : ℤ) - 1)

/-- The two-pointer merge `while i < len(self.terms) and j < len(other.terms)`
inside `__add__`, accumulating into `result` through `add_term`. -/
def mergeLoop : List Term → List Term → List Term → List Term
  | t1 :: ts1, t2 :: ts2, result =>
    if t1.2 = t2.2 then mergeLoop ts1 ts2 (add_term (t1.1 + t2.1) t1.2 result)
    else if t1.2 < t2.2 then mergeLoop ts1 (t2 :: ts2) (add_term t1.1 t1.2 result)
    else mergeLoop (t1 :: ts1) ts2 (add_term t2.1 t2.2 result)
  | _, _, result => result
termination_by a b _ => a.length + b.length

/-- `__add__`: after the merge loop, the source executes
`result += self.terms[i:] + other.terms[j:]`.  The right-hand side is a
plain Python list, so this re-enters `SparsePolynomial.__add__` whose
`isinstance` guard raises
`TypeError("The 'other' object must be an instance of SparsePolynomial.")`;
the merged value is discarded and the operation always fails. -/
def polyAdd (p other : List Term) : Except PyErr (List Term) :=
  let _result := mergeLoop p other []
  Except.error PyErr.typeError

/-- `parse_polynomial_string`, threading the mutated term list and
propagating the first parse failure. -/
def parse_polynomial_string (s : String) (ts : List Term) : Except PyErr (List Term) :=
  (splitSigns (removeSpaces s)).foldlM
    (fun acc tok =>
      match parseToken tok.trim with
      | Except.ok ce => Except.ok (add_term ce.1 ce.2 acc)
      | Except.error err => Except.error err)
    ts

/-- `__init__(polynomial_str)`: empty list, then parse when the string is
non-empty (Python truthiness). -/
def construct (s : String) : Except PyErr (List Term) :=
  if s = "" then Except.ok [] else parse_polynomial_string s []

/-- `__str__`, parameterised by the rendering of a float (a Python
built-in): each term prints as `f"{coeff}x^{exp}"` for positive exponent
and `str(coeff)` otherwise, reversed, joined by `" + "`. -/
def toStr (fmt : ℚ → String) (ts : List Term) : String :=
  String.intercalate " + "
    ((ts.map (fun t => if t.2 > 0 then fmt t.1 ++ "x^" ++ Nat.repr t.2 else fmt t.1)).reverse)

end With2dList

/-! ## Unordered strategy (`with_dict.py`) -/

namespace WithDict

/-- `exponent in self.terms`. -/
def dictHasKey (d : List DictEntry) (k : ℕ) : Bool :=
  d.any (fun p => p.1 == k)

/-- `self.terms[k]` as an optional value (`None` ≙ `KeyError`). -/
def dictGet (d : List DictEntry) (k : ℕ) : Option ℚ :=
  (d.find? (fun p => p.1 == k)).map Prod.snd

/-- `self.terms[k] = v` on an insertion-ordered dict: update the existing
entry in place, or append a new one. -/
def dictSet : List DictEntry → ℕ → ℚ → List DictEntry
  | [], k, v => [(k, v)]
  | p :: rest, k, v => if p.1 = k then (k, v) :: rest else p :: dictSet rest k v

/-- `add_term`: no-op on zero coefficient; otherwise accumulate into an
existing key or bind a fresh one. -/
def add_term (coefficient : ℚ) (exponent : ℕ) (d : List DictEntry) : List DictEntry :=
  if coefficient ≠ 0 then
    if dictHasKey d exponent then
      dictSet d exponent ((dictGet d exponent).getD 0 + coefficient)
    else dictSet d exponent coefficient
  else d

/-- `evaluate` over `terms.items()` (insertion order). -/
def evaluate (d : List DictEntry) (x : ℚ) : ℚ :=
  d.foldl (fun result t => result + t.2 * x ^ t.1) 0

/-- `__add__`: re-insert every term of `self`, then of `other`, into a
fresh polynomial through `add_term`. -/
def polyAdd (p other : List DictEntry) : List DictEntry :=
  let result := p.foldl (fun r t => add_term t.2 t.1 r) []
  other.foldl (fun r t => add_term t.2 t.1 r) result

/-- `find_coefficient(n)` is a bare `self.terms[n]`: `KeyError` when the
exponent is absent. -/
def find_coefficient (d : List DictEntry) (n : ℕ) : Except PyErr ℚ :=
  match dictGet d n with
  | some v => Except.ok v
  | none => Except.error PyErr.keyError

/-- `parse_polynomial_string` (same parser, dict-backed accumulation). -/
def parse_polynomial_string (s : String) (d : List DictEntry) : Except PyErr (List DictEntry) :=
  (splitSigns (removeSpaces s)).foldlM
    (fun acc tok =>
      match parseToken tok.trim with
      | Except.ok ce => Except.ok (add_term ce.1 ce.2 acc)
      | Except.error err => Except.error err)
    d

/-- `__init__(polynomial_str)`. -/
def construct (s : String) : Except PyErr (List DictEntry) :=
  if s = "" then Except.ok [] else parse_polynomial_string s []

/-- `__str__` (no reversal; dict iteration order is insertion order). -/
def toStr (fmt : ℚ → String) (d : List DictEntry) : String :=
  String.intercalate " + "
    (d.map (fun t => if t.1 > 0 then fmt t.2 ++ "x^" ++ Nat.repr t.1 else fmt t.2))

end WithDict

/-! ## Invariants and helper lemmas -/

/-- The exponent sequence of a 2D-list polynomial. -/
def exps (ts : List Term) : List ℕ :=
  ts.map Prod.snd

/-- The key sequence of a dict polynomial. -/
def dictKeys (d : List DictEntry) : List ℕ :=
  d.map Prod.fst

/-- Representation invariant of the ordered strategy: exponents strictly
ascending along the stored sequence. -/
def SortedT (ts : List Term) : Prop :=
  List.Pairwise (· < ·) (exps ts)

instance (ts : List Term) : Decidable (SortedT ts) := by
  unfold SortedT; infer_instance

theorem getD_eq_get (ts : List Term) (i : ℕ) (h : i < ts.length) :
    ts.getD i (0, 0) = ts.get ⟨i, h⟩ := by
  simp [List.getD_eq_getElem?_getD, List.getElem?_eq_getElem h]

theorem sortedT_get {ts : List Term} (hs : SortedT ts) {i j : ℕ}
    (hi : i < ts.length) (hj : j < ts.length) (hij : i < j) :
    (ts.get ⟨i, hi⟩).2 < (ts.get ⟨j, hj⟩).2 := by
  have h := List.pairwise_iff_getElem.mp hs i j (by simpa [exps] using hi)
    (by simpa [exps] using hj) hij
  simpa [exps] using h

theorem mem_exps_iff {ts : List Term} {e : ℕ} :
    e ∈ exps ts ↔ ∃ i, ∃ hi : i < ts.length, (ts.get ⟨i, hi⟩).2 = e := by
  constructor
  · intro h
    rcases List.mem_map.mp h with ⟨t, ht, rfl⟩
    rcases List.mem_iff_get.mp ht with ⟨⟨i, hi⟩, rfl⟩
    exact ⟨i, hi, rfl⟩
  · rintro ⟨i, hi, rfl⟩
    exact List.mem_map.mpr ⟨ts.get ⟨i, hi⟩, List.mem_iff_get.mpr ⟨⟨i, hi⟩, rfl⟩, rfl⟩

/-- Postcondition of the binary-search loop: a `found` index really holds
the searched exponent, and a `notFound` index splits the sequence into a
strictly-smaller prefix and a strictly-larger suffix. -/
def BSConc (ts : List Term) (e : ℕ) : With2dList.SearchResult → Prop
  | With2dList.SearchResult.found m => ∃ hm : m < ts.length, (ts.get ⟨m, hm⟩).2 = e
  | With2dList.SearchResult.notFound m =>
      m ≤ ts.length ∧
      (∀ i : ℕ, i < m → ∀ hi : i < ts.length, (ts.get ⟨i, hi⟩).2 < e) ∧
      (∀ i : ℕ, m ≤ i → ∀ hi : i < ts.length, e < (ts.get ⟨i, hi⟩).2)

theorem bsearchLoop_spec (ts : List Term) (e : ℕ) (hs : SortedT ts) :
    ∀ (fuel left : ℕ) (right : ℤ),
      (right + 1 - (left : ℤ)).toNat < fuel →
      right < (ts.length : ℤ) →
      (left : ℤ) ≤ right + 1 →
      (∀ i : ℕ, i < left → ∀ hi : i < ts.length, (ts.get ⟨i, hi⟩).2 < e) →
      (∀ i : ℕ, right < (i : ℤ) → ∀ hi : i < ts.length, e < (ts.get ⟨i, hi⟩).2) →
      BSConc ts e (With2dList.bsearchLoop ts e fuel left right) := by
  intro fuel
  induction fuel with
  | zero =>
    intro left right hfuel _ _ _ _
    exact absurd hfuel (Nat.not_lt_zero _)
  | succ f ih =>
    intro left right hfuel hrlen hlr1 hlo hhi
    rw [With2dList.bsearchLoop]
    by_cases hlr : (left : ℤ) ≤ right
    · rw [if_pos hlr]
      have hr0 : 0 ≤ right := le_trans (Int.ofNat_nonneg left) hlr
      have hlrn : left ≤ right.toNat := by omega
      have hmid_ge : left ≤ (left + right.toNat) / 2 := by omega
      have hmid_le : (left + right.toNat) / 2 ≤ right.toNat := by omega
      have hmlen : (left + right.toNat) / 2 < ts.length := by omega
      dsimp only
      rw [getD_eq_get ts _ hmlen]
      by_cases he : (ts.get ⟨(left + right.toNat) / 2, hmlen⟩).2 = e
      · rw [if_pos he]
        exact ⟨hmlen, he⟩
      · rw [if_neg he]
        by_cases hlt : (ts.get ⟨(left + right.toNat) / 2, hmlen⟩).2 < e
        · rw [if_pos hlt]
          refine ih ((left + right.toNat) / 2 + 1) right (by omega) hrlen (by omega) ?_ hhi
          intro i hi hilen
          rcases Nat.lt_succ_iff_lt_or_eq.mp hi with hi' | hi'
          · exact lt_trans (sortedT_get hs hilen hmlen hi') hlt
          · subst hi'
            exact hlt
        · rw [if_neg hlt]
          have hgt : e < (ts.get ⟨(left + right.toNat) / 2, hmlen⟩).2 := by omega
          refine ih left ((((left + right.toNat) / 2 : ℕ) : ℤ) - 1) (by omega) (by omega)
            (by omega) hlo ?_
          intro i hi hilen
          have hmi : (left + right.toNat) / 2 ≤ i := by omega
          rcases eq_or_lt_of_le hmi with hmi' | hmi'
          · subst hmi'
            exact hgt
          · exact lt_trans hgt (sortedT_get hs hmlen hilen hmi')
    · rw [if_neg hlr]
      refine ⟨by omega, hlo, ?_⟩
      intro i hmi hilen
      exact hhi i (by omega) hilen

/-- The loop as invoked by `add_term`: fuel `length + 1`, `left = 0`,
`right = length - 1`. -/
theorem bsearch_top (ts : List Term) (e : ℕ) (hs : SortedT ts) :
    BSConc ts e
      (With2dList.bsearchLoop ts e (ts.length + 1) 0 ((ts.length : ℤ) - 1)) := by
  refine bsearchLoop_spec ts e hs (ts.length + 1) 0 ((ts.length : ℤ) - 1)
    (by omega) (by omega) (by omega) ?_ ?_
  · intro i hi
    exact absurd hi (Nat.not_lt_zero i)
  · intro i hi hilen
    exact absurd hilen (by omega)

/-- The lookup loop of `find_coefficient` returns `0` whenever the
exponent occurs nowhere in the list (no sortedness needed: the loop can
only return a stored coefficient after seeing the exponent itself). -/
theorem findLoop_notMem (ts : List Term) (n : ℕ) (hn : n ∉ exps ts) :
    ∀ (fuel left : ℕ) (right : ℤ), right < (ts.length : ℤ) →
      With2dList.findLoop ts n fuel left right = 0 := by
  intro fuel
  induction fuel with
  | zero =>
    intro left right _
    rfl
  | succ f ih =>
    intro left right hrlen
    rw [With2dList.findLoop]
    by_cases hlr : (left : ℤ) ≤ right
    · rw [if_pos hlr]
      have hr0 : 0 ≤ right := le_trans (Int.ofNat_nonneg left) hlr
      have hmlen : (left + right.toNat) / 2 < ts.length := by omega
      dsimp only
      rw [getD_eq_get ts _ hmlen]
      have hne : (ts.get ⟨(left + right.toNat) / 2, hmlen⟩).2 ≠ n := by
        intro h
        exact hn (mem_exps_iff.mpr ⟨_, hmlen, h⟩)
      rw [if_neg hne]
      by_cases hlt : (ts.get ⟨(left + right.toNat) / 2, hmlen⟩).2 < n
      · rw [if_pos hlt]
        exact ih _ right hrlen
      · rw [if_neg hlt]
        exact ih _ _ (by omega)
    · rw [if_neg hlr]

theorem mem_pyInsert {a x : Term} :
    ∀ {l : List Term} {n : ℕ}, x ∈ With2dList.pyInsert l n a → x = a ∨ x ∈ l := by
  intro l
  induction l with
  | nil =>
    intro n h
    cases n with
    | zero =>
      rcases List.mem_cons.mp h with h | h
      · exact Or.inl h
      · exact Or.inr h
    | succ n =>
      rw [With2dList.pyInsert] at h
      rcases List.mem_cons.mp h with h | h
      · exact Or.inl h
      · simp at h
  | cons y l ihl =>
    intro n h
    cases n with
    | zero =>
      rcases List.mem_cons.mp h with h | h
      · exact Or.inl h
      · exact Or.inr h
    | succ n =>
      rw [With2dList.pyInsert] at h
      rcases List.mem_cons.mp h with h | h
      · exact Or.inr (List.mem_cons.mpr (Or.inl h))
      · rcases ihl h with h | h
        · exact Or.inl h
        · exact Or.inr (List.mem_cons.mpr (Or.inr h))

/-- Inserting at a position that splits the sorted sequence into a
strictly-smaller prefix and strictly-larger suffix keeps it sorted. -/
theorem pyInsert_sorted :
    ∀ (ts : List Term) (m : ℕ) (c : ℚ) (e : ℕ),
      SortedT ts → m ≤ ts.length →
      (∀ i : ℕ, i < m → ∀ hi : i < ts.length, (ts.get ⟨i, hi⟩).2 < e) →
      (∀ i : ℕ, m ≤ i → ∀ hi : i < ts.length, e < (ts.get ⟨i, hi⟩).2) →
      SortedT (With2dList.pyInsert ts m (c, e)) := by
  intro ts
  induction ts with
  | nil =>
    intro m c e _ hm _ _
    have hm0 : m = 0 := Nat.le_zero.mp hm
    subst hm0
    simp [With2dList.pyInsert, SortedT, exps]
  | cons t rest ih =>
    intro m c e hs hm hlo hhi
    cases m with
    | zero =>
      rw [With2dList.pyInsert]
      refine List.Pairwise.cons ?_ hs
      intro b hb
      rcases mem_exps_iff.mp hb with ⟨i, hi, rfl⟩
      exact hhi i (Nat.zero_le i) hi
    | succ n =>
      rw [With2dList.pyInsert]
      have hs' := List.pairwise_cons.mp hs
      refine List.Pairwise.cons ?_ (ih n c e hs'.2 (by simpa using hm) ?_ ?_)
      · intro b hb
        rcases List.mem_map.mp hb with ⟨y, hy, rfl⟩
        rcases mem_pyInsert hy with rfl | hy'
        · have h0 := hlo 0 (Nat.succ_pos n) (by simp)
          simpa using h0
        · exact hs'.1 y.2 (List.mem_map.mpr ⟨y, hy', rfl⟩)
      · intro i hi hilen
        have h' := hlo (i + 1) (by omega) (by simpa using Nat.succ_lt_succ hilen)
        simpa using h'
      · intro i hi hilen
        have h' := hhi (i + 1) (by omega) (by simpa using Nat.succ_lt_succ hilen)
        simpa using h'

theorem list_set_get_self : ∀ (l : List ℕ) (m : ℕ) (h : m < l.length),
    l.set m (l.get ⟨m, h⟩) = l := by
  intro l
  induction l with
  | nil =>
    intro m h
    exact absurd h (Nat.not_lt_zero m)
  | cons a l ihl =>
    intro m h
    cases m with
    | zero => rfl
    | succ n => exact congrArg (a :: ·) (ihl n (by simpa using h))

/-- Replacing a term by one with the same exponent leaves the exponent
sequence unchanged. -/
theorem set_snd_exps (ts : List Term) (m : ℕ) (hm : m < ts.length) (c' : ℚ) :
    exps (ts.set m (c', (ts.get ⟨m, hm⟩).2)) = exps ts := by
  unfold exps
  rw [List.map_set]
  have hm' : m < (ts.map Prod.snd).length := by simpa using hm
  have h : (ts.get ⟨m, hm⟩).2 = (ts.map Prod.snd).get ⟨m, hm'⟩ := by simp
  rw [h, list_set_get_self]

/-- `add_term` preserves the sortedness invariant. -/
theorem add_term_sorted (c : ℚ) (e : ℕ) (ts : List Term) (hs : SortedT ts) :
    SortedT (With2dList.add_term c e ts) := by
  unfold With2dList.add_term
  by_cases hc : c ≠ 0
  · rw [if_pos hc]
    have h := bsearch_top ts e hs
    cases hres : With2dList.bsearchLoop ts e (ts.length + 1) 0 ((ts.length : ℤ) - 1) with
    | found m =>
      rw [hres] at h
      obtain ⟨hm, heq⟩ := h
      dsimp only
      rw [List.get?_eq_get hm]
      show SortedT (ts.set m ((ts.get ⟨m, hm⟩).1 + c, (ts.get ⟨m, hm⟩).2))
      rw [SortedT, set_snd_exps ts m hm]
      exact hs
    | notFound m =>
      rw [hres] at h
      obtain ⟨hm, hlo, hhi⟩ := h
      exact pyInsert_sorted ts m c e hs hm hlo hhi
  · rw [if_neg hc]
    exact hs

/-- On a sorted list that already stores the exponent, `add_term` with a
nonzero coefficient finds that exact slot and accumulates in place. -/
theorem add_term_found (c : ℚ) (e : ℕ) (ts : List Term) (hs : SortedT ts)
    (hc : c ≠ 0) (hmem : e ∈ exps ts) :
    ∃ m, ∃ hm : m < ts.length, (ts.get ⟨m, hm⟩).2 = e ∧
      With2dList.add_term c e ts =
        ts.set m ((ts.get ⟨m, hm⟩).1 + c, (ts.get ⟨m, hm⟩).2) := by
  have h := bsearch_top ts e hs
  cases hres : With2dList.bsearchLoop ts e (ts.length + 1) 0 ((ts.length : ℤ) - 1) with
  | found m =>
    rw [hres] at h
    obtain ⟨hm, heq⟩ := h
    refine ⟨m, hm, heq, ?_⟩
    unfold With2dList.add_term
    rw [if_pos hc, hres]
    dsimp only
    rw [List.get?_eq_get hm]
  | notFound m =>
    rw [hres] at h
    obtain ⟨-, hlo, hhi⟩ := h
    rcases mem_exps_iff.mp hmem with ⟨i, hi, hie⟩
    rcases lt_or_ge i m with him | him
    · exact absurd hie (ne_of_lt (hlo i him hi))
    · exact absurd hie (ne_of_gt (hhi i him hi))

theorem foldl_add_term_sorted (ops : List (ℚ × ℕ)) :
    ∀ ts : List Term, SortedT ts →
      SortedT (ops.foldl (fun acc p => With2dList.add_term p.1 p.2 acc) ts) := by
  induction ops with
  | nil =>
    intro ts hs
    exact hs
  | cons p ops ih =>
    intro ts hs
    exact ih _ (add_term_sorted p.1 p.2 ts hs)

/-! ## Dict-strategy lemmas -/

theorem dictHasKey_iff (d : List DictEntry) (k : ℕ) :
    WithDict.dictHasKey d k = true ↔ k ∈ dictKeys d := by
  simp [WithDict.dictHasKey, dictKeys, List.any_eq_true, List.mem_map, beq_iff_eq]

theorem dictGet_eq_none (d : List DictEntry) (k : ℕ) (h : k ∉ dictKeys d) :
    WithDict.dictGet d k = none := by
  unfold WithDict.dictGet
  rw [List.find?_eq_none.mpr]
  · rfl
  · intro p hp hpk
    exact h (List.mem_map.mpr ⟨p, hp, by simpa using hpk⟩)

theorem dictGet_hasKey (d : List DictEntry) (k : ℕ) (v : ℚ)
    (h : WithDict.dictGet d k = some v) : WithDict.dictHasKey d k = true := by
  unfold WithDict.dictGet at h
  rcases Option.map_eq_some'.mp h with ⟨p, hp, -⟩
  have hmem := List.mem_of_find?_eq_some hp
  have hpk := List.find?_some hp
  exact List.any_eq_true.mpr ⟨p, hmem, hpk⟩

theorem dictSet_keys (d : List DictEntry) (k : ℕ) (v : ℚ) (h : k ∈ dictKeys d) :
    dictKeys (WithDict.dictSet d k v) = dictKeys d := by
  induction d with
  | nil => simp [dictKeys] at h
  | cons p rest ih =>
    rw [WithDict.dictSet]
    by_cases hp : p.1 = k
    · rw [if_pos hp]
      simp [dictKeys, hp]
    · rw [if_neg hp]
      have h' : k ∈ dictKeys rest := by
        have hor : k = p.1 ∨ k ∈ dictKeys rest := by simpa [dictKeys] using h
        rcases hor with rfl | h'
        · exact absurd rfl hp
        · exact h'
      show p.1 :: dictKeys (WithDict.dictSet rest k v) = p.1 :: dictKeys rest
      rw [ih h']

theorem dictGet_set (d : List DictEntry) (k : ℕ) (v : ℚ) :
    WithDict.dictGet (WithDict.dictSet d k v) k = some v := by
  induction d with
  | nil => simp [WithDict.dictSet, WithDict.dictGet]
  | cons p rest ih =>
    rw [WithDict.dictSet]
    by_cases hp : p.1 = k
    · rw [if_pos hp]
      simp [WithDict.dictGet]
    · rw [if_neg hp]
      unfold WithDict.dictGet at ih ⊢
      rw [List.find?_cons_of_neg]
      · exact ih
      · simpa using hp

/-- Dict `add_term` on an existing key: accumulate in place, keys
unchanged (even when the new value is `0`). -/
theorem dict_add_term_existing (c : ℚ) (e : ℕ) (d : List DictEntry) (v : ℚ)
    (hc : c ≠ 0) (hv : WithDict.dictGet d e = some v) :
    dictKeys (WithDict.add_term c e d) = dictKeys d ∧
    WithDict.dictGet (WithDict.add_term c e d) e = some (v + c) := by
  have hk : WithDict.dictHasKey d e = true := dictGet_hasKey d e v hv
  unfold WithDict.add_term
  rw [if_pos hc, if_pos hk, hv]
  constructor
  · exact dictSet_keys d e _ ((dictHasKey_iff d e).mp hk)
  · exact dictGet_set d e _

/-! ## Evaluation lemmas -/

/-- The coefficient of the exponent-0 term (0 when absent), 2D-list side. -/
def constCoeff2d (ts : List Term) : ℚ :=
  ((ts.find? (fun t => t.2 == 0)).map Prod.fst).getD 0

/-- The coefficient of the exponent-0 term (0 when absent), dict side. -/
def constCoeffDict (d : List DictEntry) : ℚ :=
  ((d.find? (fun t => t.1 == 0)).map Prod.snd).getD 0

theorem foldl_eval_2d (ts : List Term) (x : ℚ) :
    ∀ a : ℚ, ts.foldl (fun result t => result + t.1 * x ^ t.2) a =
      a + (ts.map (fun t => t.1 * x ^ t.2)).sum := by
  induction ts with
  | nil =>
    intro a
    simp
  | cons t ts ih =>
    intro a
    simp [ih, add_assoc]

theorem foldl_eval_dict (d : List DictEntry) (x : ℚ) :
    ∀ a : ℚ, d.foldl (fun result t => result + t.2 * x ^ t.1) a =
      a + (d.map (fun t => t.2 * x ^ t.1)).sum := by
  induction d with
  | nil =>
    intro a
    simp
  | cons t d ih =>
    intro a
    simp [ih, add_assoc]

theorem sum_zero_of_no_const_2d (ts : List Term) (h : ∀ t ∈ ts, t.2 ≠ 0) :
    (ts.map (fun t => t.1 * (0 : ℚ) ^ t.2)).sum = 0 := by
  induction ts with
  | nil => simp
  | cons t ts ih =>
    simp only [List.map_cons, List.sum_cons]
    rw [zero_pow (h t (List.mem_cons_self t ts)),
      ih (fun u hu => h u (List.mem_cons_of_mem t hu))]
    simp

theorem sum_zero_pow_eq_const_2d (ts : List Term) (h : (exps ts).Nodup) :
    (ts.map (fun t => t.1 * (0 : ℚ) ^ t.2)).sum = constCoeff2d ts := by
  induction ts with
  | nil => simp [constCoeff2d]
  | cons t ts ih =>
    have h' : (t.2 :: exps ts).Nodup := h
    have hnd := List.nodup_cons.mp h'
    simp only [List.map_cons, List.sum_cons]
    by_cases ht : t.2 = 0
    · have hrest : ∀ u ∈ ts, u.2 ≠ 0 := by
        intro u hu h0
        exact hnd.1 (by rw [ht, ← h0]; exact List.mem_map.mpr ⟨u, hu, rfl⟩)
      rw [sum_zero_of_no_const_2d ts hrest, ht]
      unfold constCoeff2d
      rw [List.find?_cons_of_pos _ (by rw [beq_iff_eq]; exact ht)]
      simp
    · rw [zero_pow ht, ih hnd.2]
      unfold constCoeff2d
      rw [List.find?_cons_of_neg _ (by simpa using ht)]
      simp

theorem sum_zero_of_no_const_dict (d : List DictEntry) (h : ∀ t ∈ d, t.1 ≠ 0) :
    (d.map (fun t => t.2 * (0 : ℚ) ^ t.1)).sum = 0 := by
  induction d with
  | nil => simp
  | cons t d ih =>
    simp only [List.map_cons, List.sum_cons]
    rw [zero_pow (h t (List.mem_cons_self t d)),
      ih (fun u hu => h u (List.mem_cons_of_mem t hu))]
    simp

theorem sum_zero_pow_eq_const_dict (d : List DictEntry) (h : (dictKeys d).Nodup) :
    (d.map (fun t => t.2 * (0 : ℚ) ^ t.1)).sum = constCoeffDict d := by
  induction d with
  | nil => simp [constCoeffDict]
  | cons t d ih =>
    have h' : (t.1 :: dictKeys d).Nodup := h
    have hnd := List.nodup_cons.mp h'
    simp only [List.map_cons, List.sum_cons]
    by_cases ht : t.1 = 0
    · have hrest : ∀ u ∈ d, u.1 ≠ 0 := by
        intro u hu h0
        exact hnd.1 (by rw [ht, ← h0]; exact List.mem_map.mpr ⟨u, hu, rfl⟩)
      rw [sum_zero_of_no_const_dict d hrest, ht]
      unfold constCoeffDict
      rw [List.find?_cons_of_pos _ (by rw [beq_iff_eq]; exact ht)]
      simp
    · rw [zero_pow ht, ih hnd.2]
      unfold constCoeffDict
      rw [List.find?_cons_of_neg _ (by simpa using ht)]
      simp

/-! ## Claim theorems -/

/-- C1: the claim says `__add__` in the ordered (2D-list) strategy returns
a new polynomial built by a two-pointer merge.  In the source the merge is
followed by `result += self.terms[i:] + other.terms[j:]`, whose right-hand
side is a plain list; that re-enters `__add__` and trips its `isinstance`
guard, so the operation raises `TypeError` for every pair of inputs and
never returns the merged polynomial. -/
theorem polyAdd2d_always_type_error (p q : List Term) :
    With2dList.polyAdd p q = Except.error PyErr.typeError := rfl

/-- C2: parsing `"2.1x^8 + 30x^9 + 3x + 10 + 10x^9 + 1 - 10"` yields the
term collection `{8: 2.1, 9: 40, 1: 3, 0: 1}` in both strategies (the 2D
list in ascending exponent order, the dict in insertion order), and
`find_coefficient(9)` returns `40` on the result in both strategies. -/
theorem parse_example_string_spec :
    With2dList.construct "2.1x^8 + 30x^9 + 3x + 10 + 10x^9 + 1 - 10" =
      Except.ok [(1, 0), (3, 1), (21/10, 8), (40, 9)] ∧
    WithDict.construct "2.1x^8 + 30x^9 + 3x + 10 + 10x^9 + 1 - 10" =
      Except.ok [(8, 21/10), (9, 40), (1, 3), (0, 1)] ∧
    With2dList.find_coefficient [(1, 0), (3, 1), (21/10, 8), (40, 9)] 9 = 40 ∧
    WithDict.find_coefficient [(8, 21/10), (9, 40), (1, 3), (0, 1)] 9 = Except.ok 40 := by
  refine ⟨?_, ?_, ?_, ?_⟩ <;> with_unfolding_all decide

/-- C3 counterexample: on the token `"x"` the parser does NOT produce
coefficient 1 — the regex matches with an empty coefficient group and
`float("")` raises `ValueError`, so construction fails. -/
theorem parse_unit_coefficient_fails :
    With2dList.construct "x" = Except.error PyErr.valueError ∧
    parseToken "x" ≠ Except.ok (1, 1) := by
  constructor <;> with_unfolding_all decide

/-- C3 (amended): every token on which the regex matches with no explicit
coefficient digits — the captured coefficient group is then the bare sign,
one of `""`, `"+"`, `"-"` (as for `"x"`, `"+x^3"`, `"-x"`, `"x^7"`) —
makes parsing fail with a `ValueError` from
`float("")`/`float("+")`/`float("-")` instead of defaulting the
coefficient to 1; the exponent, by contrast, does default to 1 whenever
the matched exponent group is empty. -/
theorem parse_token_behavior :
    (∀ (t : String) (g : String × String),
      matchTerm t = some g → g.1 ∈ ["", "+", "-"] →
      parseToken t = Except.error PyErr.valueError) ∧
    ∀ (t : String) (g : String × String) (c : ℚ),
      matchTerm t = some g → g.2 = "" → pyFloat g.1 = some c →
      parseToken t = Except.ok (c, 1) := by
  constructor
  · intro t g hm hg
    have hq : g.1 = "" ∨ g.1 = "+" ∨ g.1 = "-" := by simpa using hg
    have hnone : pyFloat g.1 = none := by
      rcases hq with hq | hq | hq <;> rw [hq] <;> rfl
    simp [parseToken, hm, hnone]
  · intro t g c hm hg hc
    simp [parseToken, hm, hc, hg]

/-- Witness for the amended C3: the token `"x^7"` (no coefficient digits)
fails with a `ValueError`, while `"3x"` (explicit coefficient, no exponent
suffix) parses to coefficient 3 and default exponent 1. -/
theorem parse_token_behavior_witness :
    parseToken "x^7" = Except.error PyErr.valueError ∧
    parseToken "3x" = Except.ok (3, 1) :=
  ⟨parse_token_behavior.1 "x^7" ("", "7") (by decide) (by decide),
   parse_token_behavior.2 "3x" ("3", "") 3 (by decide) rfl
    (by with_unfolding_all decide)⟩

/-- C4: for an exponent absent from storage, the ordered strategy's
`find_coefficient` returns 0 (for any term list, sorted or not), while the
dict strategy's bare `self.terms[n]` fails with a `KeyError`. -/
theorem find_coefficient_absent (ts : List Term) (d : List DictEntry) (e : ℕ)
    (hts : e ∉ exps ts) (hd : e ∉ dictKeys d) :
    With2dList.find_coefficient ts e = 0 ∧
    WithDict.find_coefficient d e = Except.error PyErr.keyError := by
  constructor
  · exact findLoop_notMem ts e hts _ 0 _ (by omega)
  · unfold WithDict.find_coefficient
    rw [dictGet_eq_none d e hd]

/-- Witness for C4 at exponent 5, absent from both stores. -/
theorem find_coefficient_absent_witness :
    With2dList.find_coefficient [(2, 3)] 5 = 0 ∧
    WithDict.find_coefficient [(3, 2)] 5 = Except.error PyErr.keyError :=
  find_coefficient_absent [(2, 3)] [(3, 2)] 5 (by decide) (by decide)

/-- C5: `add_term` with a nonzero coefficient on an exponent already
stored accumulates into the existing slot in both strategies, and the term
stays stored — the exponent sequence (2D list) and key sequence (dict) are
unchanged — even when the accumulated coefficient is exactly 0. -/
theorem add_term_accumulates_existing (ts : List Term) (c : ℚ) (e : ℕ)
    (d : List DictEntry) (v : ℚ)
    (hs : SortedT ts) (hmem : e ∈ exps ts) (hc : c ≠ 0)
    (hv : WithDict.dictGet d e = some v) :
    (∃ m, ∃ hm : m < ts.length, (ts.get ⟨m, hm⟩).2 = e ∧
        With2dList.add_term c e ts =
          ts.set m ((ts.get ⟨m, hm⟩).1 + c, (ts.get ⟨m, hm⟩).2)) ∧
    exps (With2dList.add_term c e ts) = exps ts ∧
    dictKeys (WithDict.add_term c e d) = dictKeys d ∧
    WithDict.dictGet (WithDict.add_term c e d) e = some (v + c) := by
  obtain ⟨m, hm, heq, hset⟩ := add_term_found c e ts hs hc hmem
  have hdict := dict_add_term_existing c e d v hc hv
  refine ⟨⟨m, hm, heq, hset⟩, ?_, hdict.1, hdict.2⟩
  rw [hset]
  exact set_snd_exps ts m hm ((ts.get ⟨m, hm⟩).1 + c)

/-- Witness for C5: adding coefficient −1 to the stored term `1·x^0`
leaves the exponent/key structure intact and stores coefficient 0. -/
theorem add_term_accumulates_existing_witness :
    exps (With2dList.add_term (-1) 0 [(1, 0), (2, 5)]) = exps [(1, 0), (2, 5)] ∧
    WithDict.dictGet (WithDict.add_term (-1) 0 [(0, 1)]) 0 = some 0 := by
  have h := add_term_accumulates_existing [(1, 0), (2, 5)] (-1) 0 [(0, 1)] 1
    (by decide) (by decide) (by with_unfolding_all decide)
    (by with_unfolding_all decide)
  refine ⟨h.2.1, ?_⟩
  rw [h.2.2.2]
  norm_num

/-- C6: `add_term(0, e)` is a no-op in both strategies — the zero
coefficient guard short-circuits before any lookup or insertion. -/
theorem add_term_zero_noop (ts : List Term) (d : List DictEntry) (e : ℕ) :
    With2dList.add_term 0 e ts = ts ∧ WithDict.add_term 0 e d = d := by
  constructor <;> simp [With2dList.add_term, WithDict.add_term]

/-- C7: starting from the empty polynomial, any sequence of `add_term`
calls in the ordered strategy leaves the stored exponents strictly
ascending, hence pairwise distinct. -/
theorem add_term_fold_sorted_nodup (ops : List (ℚ × ℕ)) :
    SortedT (ops.foldl (fun acc p => With2dList.add_term p.1 p.2 acc) []) ∧
    (exps (ops.foldl (fun acc p => With2dList.add_term p.1 p.2 acc) [])).Nodup := by
  have hs := foldl_add_term_sorted ops [] (by simp [SortedT, exps])
  exact ⟨hs, List.Pairwise.imp ne_of_lt hs⟩

/-- C8: `evaluate(x)` is the sum over stored terms of
coefficient·x^exponent in both strategies; on the empty polynomial it is 0
for every x, and at x = 0 it returns the exponent-0 term's coefficient
(0 when there is none), exponents being pairwise distinct. -/
theorem evaluate_spec (ts : List Term) (d : List DictEntry) (x : ℚ)
    (hts : (exps ts).Nodup) (hd : (dictKeys d).Nodup) :
    With2dList.evaluate ts x = (ts.map (fun t => t.1 * x ^ t.2)).sum ∧
    With2dList.evaluate [] x = 0 ∧
    With2dList.evaluate ts 0 = constCoeff2d ts ∧
    WithDict.evaluate d x = (d.map (fun t => t.2 * x ^ t.1)).sum ∧
    WithDict.evaluate [] x = 0 ∧
    WithDict.evaluate d 0 = constCoeffDict d := by
  refine ⟨?_, rfl, ?_, ?_, rfl, ?_⟩
  · rw [With2dList.evaluate, foldl_eval_2d, zero_add]
  · rw [With2dList.evaluate, foldl_eval_2d, zero_add]
    exact sum_zero_pow_eq_const_2d ts hts
  · rw [WithDict.evaluate, foldl_eval_dict, zero_add]
  · rw [WithDict.evaluate, foldl_eval_dict, zero_add]
    exact sum_zero_pow_eq_const_dict d hd

/-- Witness for C8 at `x = 0` on `2 + 3x^2` in both representations. -/
theorem evaluate_spec_witness :
    With2dList.evaluate [(2, 0), (3, 2)] 0 = constCoeff2d [(2, 0), (3, 2)] ∧
    WithDict.evaluate [(0, 2), (2, 3)] 0 = constCoeffDict [(0, 2), (2, 3)] := by
  have h := evaluate_spec [(2, 0), (3, 2)] [(0, 2), (2, 3)] 0 (by decide) (by decide)
  exact ⟨h.2.2.1, h.2.2.2.2.2⟩

/-- C9: the claim says the two strategies' `add` operations agree as
multisets.  On `1·x^5` plus `2·x^5` the dict strategy returns `{5: 3}`,
but the 2D-list strategy raises `TypeError` (see C1), so the strategies
cannot produce observably equal results. -/
theorem add_strategies_diverge :
    WithDict.polyAdd [(5, 1)] [(5, 2)] = [(5, 3)] ∧
    With2dList.polyAdd [(1, 5)] [(2, 5)] = Except.error PyErr.typeError := by
  constructor
  · with_unfolding_all decide
  · rfl

/-- C10: `__str__` on an empty polynomial is the empty string in both
strategies (joining an empty list of rendered monomials), for any
rendering of the coefficients. -/
theorem to_string_empty (fmt : ℚ → String) :
    With2dList.toStr fmt [] = "" ∧ WithDict.toStr fmt [] = "" :=
  ⟨rfl, rfl⟩
